import Mathlib

/-!
Verification of the event-DAG store of `mvc-ircd` (`src/main.rs`).

The development shallowly embeds the core of the program:

* `Event`, `EventAction`, `PrivMsgEvent` mirror the Rust structs; strings are
  modelled as their UTF-8 byte sequences (`List Nat`), machine integers as
  `Nat` (`u64` values are reduced mod `2 ^ 64` exactly where the code's fixed
  width matters, i.e. in the 8-byte wire encoding).
* `Event.encode` / `Event.decode` embed the derived `SerialEncodable` /
  `SerialDecodable` instances: the derive writes the struct fields in
  declaration order; text is length-prefixed with a Bitcoin-style compact-size
  varint and integers are little-endian fixed width, as the serial library
  used by the program does and as the spec's wire-format section describes.
  Fallible decoding returns `Option` (`none` = `Err`).
* `Model` is the event store.  The Rust code links nodes with `Arc` pointers
  and a shared mutable child vector; the embedding uses the standard id-arena
  rendering of such a pointer graph: `event_map` maps an `EventId` to the
  node's data, and parent/child links are stored as ids.  `SHA-256` comes from
  an external crate, so the content hash is a parameter `h : Event → EventId`
  of every store operation (in the program `h = SHA-256 ∘ encode`, see
  `Event.hash`).
* `find_longest_chain` walks the pointer structure below a node, which is a
  tree (every node is pushed into exactly one parent's child vector); the
  mutual inductives `ETree`/`EForest` are that structure, with `EForest`
  playing the role of `Vec<EventNodePtr>`.  `Model.unfoldNode` reads the tree
  out of the arena with fuel (`none` = the traversal would not terminate,
  which for the actual pointer graph cannot happen).
* `find_ancestor_depth` walks parent links upward only, so its input is the
  upward chain of a node, the plain inductive `PNode` (`PNode.root` is a node
  whose `parent` field is `None`).  `Option Nat` results model the `.expect`
  panic on a missing parent as `none`.
-/

/-- 256-bit event id (`type EventId = [u8; 32]`), modelled as a byte list. -/
abbrev EventId := List Nat

/-- `struct PrivMsgEvent { nick: String, msg: String }`; the strings are kept
as their UTF-8 byte sequences. -/
structure PrivMsgEvent where
  nick : List Nat
  msg : List Nat
deriving DecidableEq, Repr

/-- `enum EventAction { PrivMsg(PrivMsgEvent) }`. -/
inductive EventAction where
  | privMsg (event : PrivMsgEvent)
deriving DecidableEq, Repr

/-- `struct Event { previous_event_hash, action, timestamp }`. -/
structure Event where
  previous_event_hash : EventId
  action : EventAction
  timestamp : Nat
deriving DecidableEq, Repr

/-- Little-endian byte encoding of `n` on `w` bytes (the fixed-width integer
encoding of the serial library; for `w = 8` this is `u64::to_le_bytes`, which
truncates a `Nat` above `2 ^ 64` exactly as the machine width does). -/
def natLeBytes : Nat → Nat → List Nat
  | 0, _ => []
  | w + 1, n => n % 256 :: natLeBytes w (n / 256)

/-- Bitcoin-style compact-size varint used by the serial library for length
prefixes. -/
def encodeVarInt (n : Nat) : List Nat :=
  if n < 0xFD then [n]
  else if n ≤ 0xFFFF then 0xFD :: natLeBytes 2 n
  else if n ≤ 0xFFFFFFFF then 0xFE :: natLeBytes 4 n
  else 0xFF :: natLeBytes 8 n

/-- Length-prefixed byte string (`impl Encodable for String`). -/
def encodeVarBytes (s : List Nat) : List Nat :=
  encodeVarInt s.length ++ s

/-- `impl Encodable for EventAction`: one type-tag byte (`0u8` for `PrivMsg`)
followed by the derived `PrivMsgEvent` encoding (`nick`, then `msg`). -/
def EventAction.encode : EventAction → List Nat
  | .privMsg ev => 0 :: (encodeVarBytes ev.nick ++ encodeVarBytes ev.msg)

/-- The derived `SerialEncodable` for `Event` encodes the fields in
declaration order: `previous_event_hash` (32 raw bytes), then `action`, then
`timestamp` (8 bytes little-endian). -/
def Event.encode (e : Event) : List Nat :=
  e.previous_event_hash ++ e.action.encode ++ natLeBytes 8 e.timestamp

/-- `Event::hash`: SHA-256 of the canonical encoding.  The SHA-256 compression
function lives in an external crate, so it is the parameter `sha`. -/
def Event.hash (sha : List Nat → EventId) (e : Event) : EventId :=
  sha e.encode

/-- `read_u8`: one byte from the stream (`none` = `Err` on exhausted input). -/
def readU8 : List Nat → Option (Nat × List Nat)
  | [] => none
  | b :: s => some (b, s)

/-- Read exactly `n` bytes from the stream. -/
def readBytes : Nat → List Nat → Option (List Nat × List Nat)
  | 0, s => some ([], s)
  | _ + 1, [] => none
  | n + 1, b :: s => (readBytes n s).map fun p => (b :: p.1, p.2)

/-- Little-endian value of a byte list. -/
def leVal : List Nat → Nat
  | [] => 0
  | b :: rest => b + 256 * leVal rest

/-- Read a `w`-byte little-endian integer. -/
def readLeNat (w : Nat) (s : List Nat) : Option (Nat × List Nat) :=
  (readBytes w s).map fun p => (leVal p.1, p.2)

/-- Decode a compact-size varint. -/
def readVarInt : List Nat → Option (Nat × List Nat)
  | [] => none
  | b :: s =>
    if b < 0xFD then some (b, s)
    else if b = 0xFD then readLeNat 2 s
    else if b = 0xFE then readLeNat 4 s
    else readLeNat 8 s

/-- `impl Decodable for String`: varint length, then that many bytes (the
UTF-8 re-validation always succeeds on bytes produced by `encode`, so it is
not modelled at the byte level). -/
def readString (s : List Nat) : Option (List Nat × List Nat) := do
  let (len, s1) ← readVarInt s
  readBytes len s1

/-- `impl Decodable for EventAction`: a type-id byte, `0` selects `PrivMsg`
(whose derived decoder reads `nick` then `msg`), anything else is
`Err(ParseFailed("Bad type ID byte for Event"))`. -/
def EventAction.decode (s : List Nat) : Option (EventAction × List Nat) := do
  let (tid, s1) ← readU8 s
  if tid = 0 then
    let (nick, s2) ← readString s1
    let (msg, s3) ← readString s2
    some (EventAction.privMsg ⟨nick, msg⟩, s3)
  else none

/-- Derived `SerialDecodable` for `Event`: fields in declaration order. -/
def Event.decode (s : List Nat) : Option (Event × List Nat) := do
  let (prev, s1) ← readBytes 32 s
  let (act, s2) ← EventAction.decode s1
  let (ts, s3) ← readLeNat 8 s2
  some ({ previous_event_hash := prev, action := act, timestamp := ts }, s3)

/-- A well-formed event: a 32-byte parent hash, genuine bytes, and sizes that
fit the machine widths of the program (`u64` timestamp and string lengths). -/
def Event.wf (e : Event) : Prop :=
  e.previous_event_hash.length = 32 ∧
  (∀ b ∈ e.previous_event_hash, b < 256) ∧
  e.timestamp < 2 ^ 64 ∧
  match e.action with
  | .privMsg ev =>
    ev.nick.length < 2 ^ 64 ∧ (∀ b ∈ ev.nick, b < 256) ∧
    ev.msg.length < 2 ^ 64 ∧ (∀ b ∈ ev.msg, b < 256)

instance (e : Event) : Decidable e.wf := by
  unfold Event.wf
  exact inferInstance

/-- The data of one `EventNode` in the id-arena rendering of the pointer
graph: `parent: Option<EventNodePtr>` and the `Mutex<Vec<EventNodePtr>>`
child vector become ids (`None` exactly for the current root). -/
structure EventNode where
  parent : Option EventId
  event : Event
  children : List EventId
deriving DecidableEq, Repr

/-- `struct Model { current_root, orphans, event_map }`; the `HashMap` is an
association list with replace-on-insert semantics. -/
structure Model where
  current_root : EventId
  orphans : List Event
  event_map : List (EventId × EventNode)
deriving DecidableEq, Repr

/-- `HashMap::get`. -/
def alookup (em : List (EventId × EventNode)) (k : EventId) : Option EventNode :=
  match em with
  | [] => none
  | (k', v) :: rest => if k' = k then some v else alookup rest k

/-- `HashMap::contains_key`. -/
def acontains (em : List (EventId × EventNode)) (k : EventId) : Bool :=
  (alookup em k).isSome

/-- `HashMap::insert`: replaces the value at an existing key, otherwise adds
the binding. -/
def ainsert (em : List (EventId × EventNode)) (k : EventId) (v : EventNode) :
    List (EventId × EventNode) :=
  match em with
  | [] => [(k, v)]
  | (k', v') :: rest => if k' = k then (k, v) :: rest else (k', v') :: ainsert rest k v

/-- `parent.children.lock().await.push(node)`: the child vector of the node
with id `k` is shared through an `Arc`, so in the arena it is updated in
place. -/
def appendChild (em : List (EventId × EventNode)) (k : EventId) (childId : EventId) :
    List (EventId × EventNode) :=
  em.map fun p =>
    if p.1 = k then (p.1, { p.2 with children := p.2.children ++ [childId] }) else p

/-- The UTF-8 bytes of `"root"`. -/
def rootNickBytes : List Nat := [114, 111, 111, 116]

/-- The UTF-8 bytes of `"Let there be dark"`. -/
def rootMsgBytes : List Nat :=
  [76, 101, 116, 32, 116, 104, 101, 114, 101, 32, 98, 101, 32, 100, 97, 114, 107]

/-- The synthetic genesis event built by `Model::new`; `now` is the value of
`get_current_time()` at store creation. -/
def genesisEvent (now : Nat) : Event :=
  { previous_event_hash := List.replicate 32 0
    action := EventAction.privMsg { nick := rootNickBytes, msg := rootMsgBytes }
    timestamp := now }

/-- `Model::new`: the genesis node becomes `current_root` and the only entry
of `event_map`; `h` is the content hash (`Event::hash`). -/
def Model.new (h : Event → EventId) (now : Nat) : Model :=
  let rootId := h (genesisEvent now)
  { current_root := rootId
    orphans := []
    event_map := [(rootId, { parent := none, event := genesisEvent now, children := [] })] }

/-- The loop body of `Model::reorganize`, iterating over the orphans taken
out of `self.orphans`.  An orphan whose parent id is absent from the index is
pushed onto the local `remaining_orphans` vector — which the function never
writes back into the store, so such an orphan simply disappears; the arena
therefore just skips it.  Otherwise a node is built, appended to the parent's
child vector, and inserted into the index (in that order, as in the source).
-/
def reorganizeLoop (h : Event → EventId) (em : List (EventId × EventNode)) :
    List Event → List (EventId × EventNode)
  | [] => em
  | orphan :: rest =>
    let prevEvent := orphan.previous_event_hash
    if acontains em prevEvent then
      let nodeId := h orphan
      let em1 := appendChild em prevEvent nodeId
      let em2 := ainsert em1 nodeId { parent := some prevEvent, event := orphan, children := [] }
      reorganizeLoop h em2 rest
    else
      reorganizeLoop h em rest

/-- `Model::reorganize`: `std::mem::take(&mut self.orphans)` empties the
orphan buffer, then every taken orphan runs through `reorganizeLoop`. -/
def Model.reorganize (h : Event → EventId) (m : Model) : Model :=
  { m with orphans := [], event_map := reorganizeLoop h m.event_map m.orphans }

/-- `Model::add`: push the event onto the orphan buffer, then reorganize. -/
def Model.add (h : Event → EventId) (m : Model) (event : Event) : Model :=
  Model.reorganize h { m with orphans := m.orphans ++ [event] }

mutual
/-- The pointer structure below one `EventNodePtr`, as `find_longest_chain`
sees it: the node's event and its child vector.  Every node is pushed into
exactly one parent's child vector, so the structure below a node is a tree. -/
inductive ETree where
  | node (event : Event) (children : EForest)
deriving DecidableEq, Repr

/-- The `Vec<EventNodePtr>` of child pointers, in arrival order. -/
inductive EForest where
  | nil
  | cons (head : ETree) (tail : EForest)
deriving DecidableEq, Repr
end

/-- The event held by a node. -/
def ETree.eventOf : ETree → Event
  | .node e _ => e

/-- The child vector of a node. -/
def ETree.childrenOf : ETree → EForest
  | .node _ cs => cs

/-- The timestamp of the event held by a node. -/
def ETree.ts (t : ETree) : Nat :=
  t.eventOf.timestamp

/-- The child vector as a plain list. -/
def EForest.toList : EForest → List ETree
  | .nil => []
  | .cons t rest => t :: EForest.toList rest

mutual
/-- `Model::find_longest_chain(parent_node, i)`.  The result is
`some (current_max, current_node)`; `none` models a panic (the final
`assert_ne!(current_max, 0)` / `current_node.expect(..)`, or the same
`.expect` inside the timestamp tie-break, propagated outward).  The depth
counter is a `u32` in the source; here it is the no-overflow `Nat`
abstraction, adequate only while every depth reached stays below `2 ^ 32` —
`find_longest_chain_u32` below keeps the machine width (depth arithmetic mod
`2 ^ 32`), and `flc_u32_eq` proves the two agree under that bound. -/
def find_longest_chain : ETree → Nat → Option (Nat × ETree)
  | .node ev .nil, i => some (i, .node ev .nil)
  | .node _ (.cons c rest), i =>
    match flcLoop (.cons c rest) i 0 none with
    | none => none
    | some (currentMax, currentNode) =>
      if currentMax = 0 then none
      else
        match currentNode with
        | some n => some (currentMax, n)
        | none => none

/-- The `for node in &*children` fold of `find_longest_chain`, carrying the
mutable `current_max` / `current_node` pair. -/
def flcLoop : EForest → Nat → Nat → Option ETree → Option (Nat × Option ETree)
  | .nil, _, currentMax, currentNode => some (currentMax, currentNode)
  | .cons c rest, i, currentMax, currentNode =>
    match find_longest_chain c (i + 1) with
    | none => none
    | some (gi, gn) =>
      if currentMax < gi then flcLoop rest i gi (some gn)
      else if gi = currentMax then
        match currentNode with
        | none => none
        | some cur =>
          if cur.ts < gn.ts then flcLoop rest i gi (some gn)
          else flcLoop rest i currentMax (some cur)
      else flcLoop rest i currentMax currentNode
end

mutual
/-- The number of edges from a node down to its deepest descendant leaf. -/
def ETree.height : ETree → Nat
  | .node _ .nil => 0
  | .node _ (.cons c rest) => 1 + EForest.maxHeight (.cons c rest)

/-- The greatest height among the trees of a forest (`0` on the empty
forest). -/
def EForest.maxHeight : EForest → Nat
  | .nil => 0
  | .cons c rest => max c.height (EForest.maxHeight rest)
end

mutual
/-- The leaves of a tree that lie at the greatest edge-distance below it. -/
def ETree.deepLeaves : ETree → List ETree
  | .node e .nil => [.node e .nil]
  | .node _ (.cons c rest) =>
    EForest.deepLeavesAt (.cons c rest) (EForest.maxHeight (.cons c rest))

/-- The deepest leaves contributed by the trees of a forest whose height
attains `mh`. -/
def EForest.deepLeavesAt : EForest → Nat → List ETree
  | .nil, _ => []
  | .cons c rest, mh =>
    (if c.height = mh then c.deepLeaves else []) ++ EForest.deepLeavesAt rest mh
end

/-- Read the tree below the node with id `id` out of the arena.  The fuel
bounds the recursion depth; `none` models either a dangling id (an `expect`
panic in the source) or a traversal that would not terminate. -/
def Model.unfoldNode (em : List (EventId × EventNode)) : Nat → EventId → Option ETree
  | 0, _ => none
  | fuel + 1, id =>
    match alookup em id with
    | none => none
    | some nd =>
      match nd.children.foldr
          (fun cid acc =>
            match Model.unfoldNode em fuel cid, acc with
            | some t, some f => some (EForest.cons t f)
            | _, _ => none)
          (some EForest.nil) with
      | none => none
      | some f => some (ETree.node nd.event f)

/-- The tree below `current_root` (`Model::get_root` followed by the pointer
structure; `em.length + 1` fuel suffices for any acyclic arena). -/
def Model.unfoldRoot (m : Model) : Option ETree :=
  Model.unfoldNode m.event_map (m.event_map.length + 1) m.current_root

/-- `Model::find_head`: `find_longest_chain(get_root(), 0).1`, returning the
head node's event (`none` models the `expect` panics of `get_root` /
`find_longest_chain`). -/
def Model.find_head (m : Model) : Option Event :=
  match m.unfoldRoot with
  | none => none
  | some t =>
    match find_longest_chain t 0 with
    | none => none
    | some (_, n) => some n.eventOf

/-- The upward parent chain of one `EventNodePtr`, as `find_ancestor_depth`
walks it: `PNode.root` is a node whose `parent` field is `None`, i.e. the
current root. -/
inductive PNode where
  | root (event : Event)
  | child (event : Event) (parent : PNode)
deriving DecidableEq, Repr

/-- The event held by a node of a parent chain. -/
def PNode.eventOf : PNode → Event
  | .root e => e
  | .child e _ => e

/-- `Model::find_ancestor_depth(node_a, node_b)`: compare the two nodes'
event hashes, and while they differ step both to their parents, counting
steps.  `none` models the panic of
`parent.as_ref().expect("non-root nodes should have a parent set")`. -/
def find_ancestor_depth (h : Event → EventId) : PNode → PNode → Option Nat
  | a, b =>
    if h a.eventOf = h b.eventOf then some 0
    else
      match a, b with
      | .child _ pa, .child _ pb => (find_ancestor_depth h pa pb).map (· + 1)
      | _, _ => none

/-- The `k`-th ancestor of a node along parent links (`0` is the node
itself). -/
def PNode.kthParent : PNode → Nat → Option PNode
  | a, 0 => some a
  | .root _, _ + 1 => none
  | .child _ p, k + 1 => PNode.kthParent p k

/-- Whether the `k`-th ancestors of `a` and `b` both exist and carry the same
event hash — i.e. whether the lock-step walk of `find_ancestor_depth` can
meet after exactly `k` steps. -/
def meetsAt (h : Event → EventId) (a b : PNode) (k : Nat) : Bool :=
  match a.kthParent k, b.kthParent k with
  | some na, some nb => h na.eventOf = h nb.eventOf
  | _, _ => false

/-- The event wire layout as the spec's wire-format sentence orders the
fields: action tag byte first, then the 32-byte parent hash, then the
action-specific fields, then the 8-byte timestamp.  (This definition follows
the spec's words, to be compared with `Event.encode`, which is translated
from the source.) -/
def specWireLayout (e : Event) : List Nat :=
  match e.action with
  | .privMsg ev =>
    0 :: (e.previous_event_hash ++ encodeVarBytes ev.nick ++ encodeVarBytes ev.msg ++
      natLeBytes 8 e.timestamp)

/-- A stand-in content hash for concrete evaluations: it sends an event to
its timestamp, so the events of the scenarios below (which carry distinct
timestamps) get distinct ids, which is all the program asks of SHA-256
there. -/
def testHash (e : Event) : EventId := [e.timestamp]

/-- A concrete event whose parent is the genesis node of
`Model.new testHash 0` (`testHash (genesisEvent 0) = [0]`). -/
def evParent : Event :=
  { previous_event_hash := [0]
    action := EventAction.privMsg { nick := [112], msg := [112] }
    timestamp := 1 }

/-- A concrete event whose parent is `evParent` (`testHash evParent = [1]`). -/
def evChild : Event :=
  { previous_event_hash := [1]
    action := EventAction.privMsg { nick := [99], msg := [99] }
    timestamp := 2 }

/-- A concrete well-formed event for the serialization witnesses. -/
def wireEvent : Event :=
  { previous_event_hash := List.replicate 32 7
    action := EventAction.privMsg { nick := [97], msg := [98, 99] }
    timestamp := 123456789 }

/-- A concrete event whose parent hash starts with byte `1`, separating the
source's field order from the spec sentence's field order. -/
def c5Event : Event :=
  { previous_event_hash := List.replicate 32 1
    action := EventAction.privMsg { nick := [97], msg := [98] }
    timestamp := 5 }

/-- A concrete orphan whose parent id `[9]` is unknown to a fresh store. -/
def strayEvent : Event :=
  { previous_event_hash := [9]
    action := EventAction.privMsg { nick := [99], msg := [99] }
    timestamp := 3 }

/-- `max (i + 1 + height c)` over the trees `c` of a forest (`0` on the empty
forest): the depth the children of a node at depth `i` contribute. -/
def EForest.chainMax : EForest → Nat → Nat
  | .nil, _ => 0
  | .cons c rest, i => max (i + 1 + c.height) (EForest.chainMax rest i)

/-- A second event with the genesis of `Model.new testHash 0` as parent and a
greater timestamp than `evParent`. -/
def evRival : Event :=
  { previous_event_hash := [0]
    action := EventAction.privMsg { nick := [114], msg := [114] }
    timestamp := 2 }

/-- The store with both `evParent` and `evRival` attached under the root:
two sibling branches of equal depth. -/
def mW6 : Model :=
  Model.add testHash (Model.add testHash (Model.new testHash 0) evParent) evRival

/-- The pointer tree below the root of `mW6`. -/
def tW6 : ETree :=
  ETree.node (genesisEvent 0)
    (.cons (.node evParent .nil) (.cons (.node evRival .nil) .nil))

/-- The root node of a concrete parent chain (its `parent` field is `None`). -/
def pnRoot : PNode := .root (genesisEvent 0)

/-- A node one parent link above `pnRoot`. -/
def pnMid : PNode := .child evParent pnRoot

/-- A node two parent links above `pnRoot`. -/
def pnTop : PNode := .child evChild pnMid

/-- A sibling of `pnMid`: also one parent link above `pnRoot`. -/
def pnSib : PNode := .child evRival pnRoot

/-- A fresh store whose orphan buffer holds `evParent` followed by its child
`evChild` — the child's parent is not yet indexed when the pass begins. -/
def mC7 : Model := { Model.new testHash 0 with orphans := [evParent, evChild] }

/-- A fresh store whose orphan buffer holds the child `evChild` before its
parent `evParent` — the spec's grandchild-arriving-first buffer order. -/
def mC7rev : Model := { Model.new testHash 0 with orphans := [evChild, evParent] }

mutual
/-- Width-faithful `Model::find_longest_chain`: the depth counter is a `u32`
in the source, so `i + 1` is computed mod `2 ^ 32` — the release-build wrap
(a debug build panics on the overflow itself, so either way the call
misbehaves once the depth reaches `u32::MAX`).  `find_longest_chain` above
is the no-overflow abstraction of this function; `flc_u32_eq` proves the two
agree whenever every depth reached stays below `2 ^ 32`. -/
def find_longest_chain_u32 : ETree → Nat → Option (Nat × ETree)
  | .node ev .nil, i => some (i, .node ev .nil)
  | .node _ (.cons c rest), i =>
    match flcLoop_u32 (.cons c rest) i 0 none with
    | none => none
    | some (currentMax, currentNode) =>
      if currentMax = 0 then none
      else
        match currentNode with
        | some n => some (currentMax, n)
        | none => none

/-- The `for` loop of `find_longest_chain_u32`, with the `u32` wrap on the
depth passed to each recursive call. -/
def flcLoop_u32 : EForest → Nat → Nat → Option ETree → Option (Nat × Option ETree)
  | .nil, _, currentMax, currentNode => some (currentMax, currentNode)
  | .cons c rest, i, currentMax, currentNode =>
    match find_longest_chain_u32 c ((i + 1) % 2 ^ 32) with
    | none => none
    | some (gi, gn) =>
      if currentMax < gi then flcLoop_u32 rest i gi (some gn)
      else if gi = currentMax then
        match currentNode with
        | none => none
        | some cur =>
          if cur.ts < gn.ts then flcLoop_u32 rest i gi (some gn)
          else flcLoop_u32 rest i currentMax (some cur)
      else flcLoop_u32 rest i currentMax currentNode
end

theorem natLeBytes_length (w n : Nat) : (natLeBytes w n).length = w := by
  induction w generalizing n with
  | zero => rfl
  | succ w ih => simp [natLeBytes, ih]

theorem readBytes_exact (bs rest : List Nat) :
    readBytes bs.length (bs ++ rest) = some (bs, rest) := by
  induction bs with
  | nil => rfl
  | cons b bs ih => simp [readBytes, ih]

theorem leVal_natLeBytes (w n : Nat) : leVal (natLeBytes w n) = n % 256 ^ w := by
  induction w generalizing n with
  | zero => simp [natLeBytes, leVal, Nat.mod_one]
  | succ w ih =>
    rw [natLeBytes, leVal, ih, pow_succ', Nat.mod_mul]

theorem readLeNat_roundtrip (w n : Nat) (rest : List Nat) (h : n < 256 ^ w) :
    readLeNat w (natLeBytes w n ++ rest) = some (n, rest) := by
  have h1 : readBytes w (natLeBytes w n ++ rest) = some (natLeBytes w n, rest) := by
    have h2 := readBytes_exact (natLeBytes w n) rest
    rwa [natLeBytes_length] at h2
  rw [readLeNat, h1, Option.map_some']
  rw [leVal_natLeBytes, Nat.mod_eq_of_lt h]

theorem readVarInt_roundtrip (n : Nat) (rest : List Nat) (h : n < 2 ^ 64) :
    readVarInt (encodeVarInt n ++ rest) = some (n, rest) := by
  rw [encodeVarInt]
  by_cases h1 : n < 0xFD
  · rw [if_pos h1]
    simp [readVarInt, h1]
  · rw [if_neg h1]
    by_cases h2 : n ≤ 0xFFFF
    · rw [if_pos h2]
      have : readVarInt ((0xFD :: natLeBytes 2 n) ++ rest) =
          readLeNat 2 (natLeBytes 2 n ++ rest) := by
        simp [readVarInt]
      rw [this, readLeNat_roundtrip]
      omega
    · rw [if_neg h2]
      by_cases h3 : n ≤ 0xFFFFFFFF
      · rw [if_pos h3]
        have : readVarInt ((0xFE :: natLeBytes 4 n) ++ rest) =
            readLeNat 4 (natLeBytes 4 n ++ rest) := by
          simp [readVarInt]
        rw [this, readLeNat_roundtrip]
        omega
      · rw [if_neg h3]
        have : readVarInt ((0xFF :: natLeBytes 8 n) ++ rest) =
            readLeNat 8 (natLeBytes 8 n ++ rest) := by
          simp [readVarInt]
        rw [this, readLeNat_roundtrip]
        omega

theorem readString_roundtrip (s rest : List Nat) (h : s.length < 2 ^ 64) :
    readString (encodeVarBytes s ++ rest) = some (s, rest) := by
  rw [readString, encodeVarBytes, List.append_assoc,
    readVarInt_roundtrip s.length (s ++ rest) h]
  simp [readBytes_exact]

theorem event_decode_encode (e : Event) (hwf : e.wf) :
    Event.decode (Event.encode e) = some (e, []) := by
  obtain ⟨prev, act, ts⟩ := e
  obtain ⟨⟨nick, msg⟩⟩ := act
  simp only [Event.wf] at hwf
  obtain ⟨hlen, -, hts, hnl, -, hml, -⟩ := hwf
  have henc : Event.encode ⟨prev, .privMsg ⟨nick, msg⟩, ts⟩ =
      prev ++ (0 :: (encodeVarBytes nick ++
        (encodeVarBytes msg ++ natLeBytes 8 ts))) := by
    simp [Event.encode, EventAction.encode]
  have h1 : readBytes 32 (prev ++ (0 :: (encodeVarBytes nick ++
      (encodeVarBytes msg ++ natLeBytes 8 ts)))) =
      some (prev, 0 :: (encodeVarBytes nick ++
        (encodeVarBytes msg ++ natLeBytes 8 ts))) := by
    conv_lhs => rw [← hlen]
    exact readBytes_exact _ _
  have h2 : readLeNat 8 (natLeBytes 8 ts) = some (ts, []) := by
    conv_lhs => rw [← List.append_nil (natLeBytes 8 ts)]
    exact readLeNat_roundtrip 8 ts [] (by omega)
  rw [henc, Event.decode]
  simp only [h1, Option.bind_eq_bind, Option.some_bind]
  rw [EventAction.decode]
  simp [readU8, readString_roundtrip nick _ hnl, readString_roundtrip msg _ hml, h2]

/-- C8: for every well-formed event `e`, `decode (encode e)` succeeds and
returns `e` (consuming the whole input), and the content hash — SHA-256 of
the canonical encoding — is determined by those bytes, hence identical on
every evaluation of the same event. -/
theorem c8_decode_encode_roundtrip (e : Event) (hwf : e.wf) :
    Event.decode (Event.encode e) = some (e, []) ∧
    ∀ sha : List Nat → EventId, ∀ e' : Event,
      Event.encode e' = Event.encode e → Event.hash sha e' = Event.hash sha e := by
  refine ⟨event_decode_encode e hwf, ?_⟩
  intro sha e' hb
  rw [Event.hash, Event.hash, hb]

/-- Witness for C8 at the concrete event `wireEvent`. -/
theorem c8_decode_encode_roundtrip_witness :
    Event.wf wireEvent ∧ Event.decode (Event.encode wireEvent) = some (wireEvent, []) :=
  ⟨by decide, (c8_decode_encode_roundtrip wireEvent (by decide)).1⟩

/-- C5 (counterexample): the claimed layout puts the action tag byte before
the 32-byte parent hash, but `encode` emits the struct fields in declaration
order, so the parent hash comes first; on `c5Event` (parent hash bytes all
`1`) the two byte strings differ already at position 0. -/
theorem c5_layout_counterexample : Event.encode c5Event ≠ specWireLayout c5Event := by
  decide

/-- C5 (amended): `encode` produces
`[previous_event_hash: 32 bytes][action_tag: 1 byte][nick: length-prefixed]
[msg: length-prefixed][timestamp: 8 bytes little-endian]` — the parent hash
comes first and the action tag byte follows it at offset 32. -/
theorem c5_layout_amended (e : Event) (nick msg : List Nat)
    (hact : e.action = EventAction.privMsg ⟨nick, msg⟩)
    (hlen : e.previous_event_hash.length = 32) :
    Event.encode e = e.previous_event_hash ++ [0] ++ encodeVarBytes nick ++
      encodeVarBytes msg ++ natLeBytes 8 e.timestamp ∧
    (Event.encode e).take 32 = e.previous_event_hash ∧
    (Event.encode e).drop 32 = 0 :: (encodeVarBytes nick ++ encodeVarBytes msg ++
      natLeBytes 8 e.timestamp) := by
  obtain ⟨prev, act, ts⟩ := e
  simp only at hact hlen
  subst hact
  have henc : Event.encode ⟨prev, EventAction.privMsg ⟨nick, msg⟩, ts⟩ =
      prev ++ ((0 :: (encodeVarBytes nick ++ encodeVarBytes msg)) ++ natLeBytes 8 ts) := by
    simp [Event.encode, EventAction.encode, List.append_assoc]
  refine ⟨?_, ?_, ?_⟩
  · rw [henc]
    simp [List.append_assoc]
  · rw [henc, List.take_left' hlen]
  · rw [henc, List.drop_left' hlen]
    simp [List.append_assoc]

/-- Witness for C5's amended layout at the concrete event `wireEvent`. -/
theorem c5_layout_amended_witness :
    wireEvent.action = EventAction.privMsg ⟨[97], [98, 99]⟩ ∧
    wireEvent.previous_event_hash.length = 32 ∧
    (Event.encode wireEvent).take 32 = wireEvent.previous_event_hash :=
  ⟨by decide, by decide,
    (c5_layout_amended wireEvent [97] [98, 99] (by decide) (by decide)).2.1⟩

/-- C3: the claim says an orphan whose parent is unknown stays in the orphan
buffer across a reorganize pass.  The code empties `self.orphans` with
`std::mem::take` and never writes the local `remaining_orphans` back, so
after any pass the buffer is `[]` and an unresolvable orphan has vanished
from the store entirely (the index is untouched). -/
theorem c3_unresolved_orphan_discarded (h : Event → EventId) (m : Model) (e : Event)
    (hp : alookup m.event_map e.previous_event_hash = none) :
    (Model.reorganize h m).orphans = [] ∧
    (Model.reorganize h { m with orphans := [e] }).orphans = [] ∧
    (Model.reorganize h { m with orphans := [e] }).event_map = m.event_map := by
  refine ⟨rfl, rfl, ?_⟩
  simp [Model.reorganize, reorganizeLoop, acontains, hp]

/-- Witness for C3: a fresh store plus the single orphan `strayEvent`. -/
theorem c3_unresolved_orphan_discarded_witness :
    alookup (Model.new testHash 0).event_map strayEvent.previous_event_hash = none ∧
    (Model.reorganize testHash
      { Model.new testHash 0 with orphans := [strayEvent] }).orphans = [] ∧
    (Model.reorganize testHash
      { Model.new testHash 0 with orphans := [strayEvent] }).event_map =
      (Model.new testHash 0).event_map :=
  ⟨by decide,
    (c3_unresolved_orphan_discarded testHash (Model.new testHash 0) strayEvent
      (by decide)).2.1,
    (c3_unresolved_orphan_discarded testHash (Model.new testHash 0) strayEvent
      (by decide)).2.2⟩

theorem alookup_nil (k : EventId) : alookup [] k = none := rfl

theorem alookup_cons_self (k : EventId) (v : EventNode) (rest : List (EventId × EventNode)) :
    alookup ((k, v) :: rest) k = some v := by
  simp [alookup]

theorem alookup_cons_of_ne (k' k : EventId) (v : EventNode)
    (rest : List (EventId × EventNode)) (hne : ¬ k' = k) :
    alookup ((k', v) :: rest) k = alookup rest k := by
  simp [alookup, hne]

theorem ainsert_nil (k : EventId) (v : EventNode) : ainsert [] k v = [(k, v)] := rfl

theorem ainsert_cons_self (k : EventId) (v v' : EventNode)
    (rest : List (EventId × EventNode)) :
    ainsert ((k, v') :: rest) k v = (k, v) :: rest := by
  simp [ainsert]

theorem ainsert_cons_of_ne (k' k : EventId) (v v' : EventNode)
    (rest : List (EventId × EventNode)) (hne : ¬ k' = k) :
    ainsert ((k', v') :: rest) k v = (k', v') :: ainsert rest k v := by
  simp [ainsert, hne]

theorem appendChild_nil (k cid : EventId) : appendChild [] k cid = [] := rfl

theorem appendChild_cons_self (k : EventId) (v : EventNode) (cid : EventId)
    (rest : List (EventId × EventNode)) :
    appendChild ((k, v) :: rest) k cid =
      (k, { v with children := v.children ++ [cid] }) :: appendChild rest k cid := by
  simp [appendChild]

theorem appendChild_cons_of_ne (k' k : EventId) (v : EventNode) (cid : EventId)
    (rest : List (EventId × EventNode)) (hne : ¬ k' = k) :
    appendChild ((k', v) :: rest) k cid = (k', v) :: appendChild rest k cid := by
  simp [appendChild, hne]

/-- C2: the claim says `attach` is idempotent.  It is not: re-attaching an
event whose id is already indexed finds the parent again, pushes a second
node onto the parent's child vector and re-inserts the index entry, so the
store after two attaches differs from the store after one (the root's child
vector holds the event's id twice). -/
theorem c2_attach_not_idempotent (h : Event → EventId) (now : Nat) (e : Event)
    (hprev : e.previous_event_hash = h (genesisEvent now))
    (hne : h e ≠ h (genesisEvent now)) :
    Model.add h (Model.add h (Model.new h now) e) e ≠ Model.add h (Model.new h now) e ∧
    (alookup (Model.add h (Model.add h (Model.new h now) e) e).event_map
        (h (genesisEvent now))).map EventNode.children = some [h e, h e] ∧
    (alookup (Model.add h (Model.new h now) e).event_map
        (h (genesisEvent now))).map EventNode.children = some [h e] := by
  have hne' : ¬ h (genesisEvent now) = h e := fun hh => hne hh.symm
  obtain ⟨prev, act, ts⟩ := e
  have hprev' : prev = h (genesisEvent now) := hprev
  subst hprev'
  have key1 : (alookup (Model.add h (Model.new h now)
        ⟨h (genesisEvent now), act, ts⟩).event_map
      (h (genesisEvent now))).map EventNode.children =
      some [h ⟨h (genesisEvent now), act, ts⟩] := by
    simp only [Model.add, Model.reorganize, Model.new, List.nil_append, reorganizeLoop,
      acontains, alookup_cons_self, alookup_nil, Option.isSome_some, eq_self_iff_true,
      if_true, appendChild_cons_self, appendChild_nil, ainsert_cons_of_ne _ _ _ _ _ hne',
      ainsert_nil]
    simp [alookup_cons_self]
  have key2 : (alookup (Model.add h (Model.add h (Model.new h now)
        ⟨h (genesisEvent now), act, ts⟩) ⟨h (genesisEvent now), act, ts⟩).event_map
      (h (genesisEvent now))).map EventNode.children =
      some [h ⟨h (genesisEvent now), act, ts⟩, h ⟨h (genesisEvent now), act, ts⟩] := by
    simp only [Model.add, Model.reorganize, Model.new, List.nil_append, reorganizeLoop,
      acontains, alookup_cons_self, alookup_nil, Option.isSome_some, eq_self_iff_true,
      if_true, appendChild_cons_self, appendChild_cons_of_ne _ _ _ _ _ hne,
      appendChild_nil, ainsert_cons_of_ne _ _ _ _ _ hne', ainsert_cons_self, ainsert_nil]
    simp [alookup_cons_self]
  refine ⟨?_, key2, key1⟩
  intro heq
  rw [heq, key1] at key2
  simp at key2

/-- Witness for C2: `evParent` (parent = genesis of `Model.new testHash 0`)
attached twice. -/
theorem c2_attach_not_idempotent_witness :
    Model.add testHash (Model.add testHash (Model.new testHash 0) evParent) evParent ≠
      Model.add testHash (Model.new testHash 0) evParent ∧
    (alookup (Model.add testHash (Model.add testHash (Model.new testHash 0) evParent)
        evParent).event_map (testHash (genesisEvent 0))).map EventNode.children =
      some [testHash evParent, testHash evParent] :=
  ⟨(c2_attach_not_idempotent testHash 0 evParent (by decide) (by decide)).1,
    (c2_attach_not_idempotent testHash 0 evParent (by decide) (by decide)).2.1⟩

/-- C4: the claim says a child attached before its parent waits in the orphan
buffer and is resolved once the parent arrives.  In the code the child is
discarded by the very pass its own attach triggers (the buffer is emptied and
`remaining_orphans` is never written back), so after the parent arrives the
child is neither indexed nor buffered, while the parent is indexed. -/
theorem c4_orphan_child_lost (h : Event → EventId) (now : Nat) (p c : Event)
    (hpp : p.previous_event_hash = h (genesisEvent now))
    (hcp : c.previous_event_hash = h p)
    (hne1 : h p ≠ h (genesisEvent now))
    (hne2 : h c ≠ h (genesisEvent now))
    (hne3 : h c ≠ h p) :
    (Model.add h (Model.new h now) c).orphans = [] ∧
    alookup (Model.add h (Model.new h now) c).event_map (h c) = none ∧
    (Model.add h (Model.add h (Model.new h now) c) p).orphans = [] ∧
    alookup (Model.add h (Model.add h (Model.new h now) c) p).event_map (h c) = none ∧
    acontains (Model.add h (Model.add h (Model.new h now) c) p).event_map (h p) = true := by
  have hne1' : ¬ h (genesisEvent now) = h p := fun hh => hne1 hh.symm
  have hne2' : ¬ h (genesisEvent now) = h c := fun hh => hne2 hh.symm
  have hne3' : ¬ h p = h c := fun hh => hne3 hh.symm
  obtain ⟨cprev, cact, cts⟩ := c
  have hcp' : cprev = h p := hcp
  subst hcp'
  obtain ⟨pprev, pact, pts⟩ := p
  have hpp' : pprev = h (genesisEvent now) := hpp
  subst hpp'
  refine ⟨rfl, ?_, rfl, ?_, ?_⟩
  · simp only [Model.add, Model.reorganize, Model.new, List.nil_append, reorganizeLoop,
      acontains, alookup_cons_of_ne _ _ _ _ hne1', alookup_nil, Option.isSome_none,
      Bool.false_eq_true, if_false, alookup_cons_of_ne _ _ _ _ hne2']
  · simp only [Model.add, Model.reorganize, Model.new, List.nil_append, reorganizeLoop,
      acontains, alookup_cons_of_ne _ _ _ _ hne1', alookup_nil, Option.isSome_none,
      Bool.false_eq_true, if_false, alookup_cons_self, Option.isSome_some,
      eq_self_iff_true, if_true, appendChild_cons_self, appendChild_nil,
      ainsert_cons_of_ne _ _ _ _ _ hne1', ainsert_nil,
      alookup_cons_of_ne _ _ _ _ hne2', alookup_cons_of_ne _ _ _ _ hne3']
  · simp only [Model.add, Model.reorganize, Model.new, List.nil_append, reorganizeLoop,
      acontains, alookup_cons_of_ne _ _ _ _ hne1', alookup_nil, Option.isSome_none,
      Bool.false_eq_true, if_false, alookup_cons_self, Option.isSome_some,
      eq_self_iff_true, if_true, appendChild_cons_self, appendChild_nil,
      ainsert_cons_of_ne _ _ _ _ _ hne1', ainsert_nil]

/-- Witness for C4: `evChild` (child of `evParent`) attached before
`evParent` on a fresh store. -/
theorem c4_orphan_child_lost_witness :
    alookup (Model.add testHash (Model.add testHash (Model.new testHash 0) evChild)
      evParent).event_map (testHash evChild) = none ∧
    acontains (Model.add testHash (Model.add testHash (Model.new testHash 0) evChild)
      evParent).event_map (testHash evParent) = true :=
  ⟨(c4_orphan_child_lost testHash 0 evParent evChild (by decide) (by decide)
      (by decide) (by decide) (by decide)).2.2.2.1,
    (c4_orphan_child_lost testHash 0 evParent evChild (by decide) (by decide)
      (by decide) (by decide) (by decide)).2.2.2.2⟩

/-- C1: the claim says `find_head` depends only on the set of attached
events, not the attachment order.  It does not: on the two-event set
`{evParent, evChild}` (a two-link chain under the genesis of
`Model.new testHash 0`), attaching parent-then-child yields head `evChild`,
while attaching child-then-parent drops the child (the reorganize pass
discards unresolved orphans) and yields head `evParent`. -/
theorem c1_head_depends_on_attachment_order :
    Model.find_head
        (Model.add testHash (Model.add testHash (Model.new testHash 0) evParent) evChild) =
      some evChild ∧
    Model.find_head
        (Model.add testHash (Model.add testHash (Model.new testHash 0) evChild) evParent) =
      some evParent ∧
    evChild ≠ evParent ∧
    List.Perm [evParent, evChild] [evChild, evParent] :=
  ⟨by decide, by decide, by decide, by decide⟩

theorem chainMax_cons : ∀ (c : ETree) (rest : EForest) (i : Nat),
    EForest.chainMax (.cons c rest) i = i + 1 + EForest.maxHeight (.cons c rest)
  | c, .nil, i => by simp [EForest.chainMax, EForest.maxHeight]
  | c, .cons c' rest', i => by
    have ih := chainMax_cons c' rest' i
    rw [show EForest.chainMax (.cons c (.cons c' rest')) i =
      max (i + 1 + c.height) (EForest.chainMax (.cons c' rest') i) from rfl]
    rw [ih]
    rw [show EForest.maxHeight (.cons c (.cons c' rest')) =
      max c.height (EForest.maxHeight (.cons c' rest')) from rfl]
    omega

theorem mem_deepLeavesAt : ∀ (cs : EForest) (mh : Nat) (l : ETree),
    l ∈ EForest.deepLeavesAt cs mh ↔
      ∃ c, c ∈ cs.toList ∧ c.height = mh ∧ l ∈ c.deepLeaves
  | .nil, mh, l => by simp [EForest.deepLeavesAt, EForest.toList]
  | .cons c rest, mh, l => by
    rw [EForest.deepLeavesAt, List.mem_append, mem_deepLeavesAt rest mh l]
    by_cases hc : c.height = mh
    · rw [if_pos hc]
      constructor
      · rintro (hl | ⟨c', hc', hh', hl'⟩)
        · exact ⟨c, by simp [EForest.toList], hc, hl⟩
        · exact ⟨c', by simp [EForest.toList, hc'], hh', hl'⟩
      · rintro ⟨c', hc', hh', hl'⟩
        rw [EForest.toList, List.mem_cons] at hc'
        rcases hc' with rfl | hc'
        · exact Or.inl hl'
        · exact Or.inr ⟨c', hc', hh', hl'⟩
    · rw [if_neg hc]
      simp only [List.not_mem_nil, false_or]
      constructor
      · rintro ⟨c', hc', hh', hl'⟩
        exact ⟨c', by simp [EForest.toList, hc'], hh', hl'⟩
      · rintro ⟨c', hc', hh', hl'⟩
        rw [EForest.toList, List.mem_cons] at hc'
        rcases hc' with rfl | hc'
        · exact absurd hh' hc
        · exact ⟨c', hc', hh', hl'⟩

theorem sizeOf_lt_of_mem_toList : ∀ (cs : EForest), ∀ c ∈ cs.toList, sizeOf c < sizeOf cs
  | .nil => by simp [EForest.toList]
  | .cons t rest => by
    intro c hc
    rw [EForest.toList, List.mem_cons] at hc
    rcases hc with rfl | hc
    · simp
      omega
    · have := sizeOf_lt_of_mem_toList rest c hc
      simp
      omega

theorem deepLeaves_childrenOf_nil : ∀ (t : ETree), ∀ l ∈ t.deepLeaves, l.childrenOf = .nil
  | .node e .nil => by
    simp [ETree.deepLeaves, ETree.childrenOf]
  | .node e (.cons c rest) => by
    intro l hl
    rw [ETree.deepLeaves, mem_deepLeavesAt] at hl
    obtain ⟨c', hc', -, hl'⟩ := hl
    have hsz : sizeOf c' < sizeOf (ETree.node e (.cons c rest)) := by
      have h1 := sizeOf_lt_of_mem_toList (.cons c rest) c' hc'
      simp at h1 ⊢
      omega
    exact deepLeaves_childrenOf_nil c' l hl'
termination_by t => sizeOf t
decreasing_by exact hsz

mutual

/-- `find_longest_chain t i` returns `i` plus the height of `t`, together
with a deepest leaf of `t` whose timestamp is maximal among the deepest
leaves of `t`. -/
theorem flc_spec : ∀ (t : ETree) (i : Nat),
    ∃ l, find_longest_chain t i = some (i + t.height, l) ∧ l ∈ t.deepLeaves ∧
      ∀ l' ∈ t.deepLeaves, l'.ts ≤ l.ts
  | .node e .nil, i => by
    refine ⟨.node e .nil, ?_, ?_, ?_⟩
    · rw [find_longest_chain, ETree.height]
      simp
    · simp [ETree.deepLeaves]
    · simp [ETree.deepLeaves]
  | .node e (.cons c rest), i => by
    obtain ⟨lc, hflc, hmemc, hmaxc⟩ := flc_spec c (i + 1)
    obtain ⟨M, l, heq, hM, hdisj, h4, h5⟩ :=
      flcLoop_spec rest i (i + 1 + c.height) lc (by omega)
    have hloop : flcLoop (.cons c rest) i 0 none = some (M, some l) := by
      rw [flcLoop, hflc]
      simp only [show 0 < i + 1 + c.height from by omega, if_true, heq]
    have hMmh : M = i + 1 + EForest.maxHeight (.cons c rest) := by
      have h6 : M = EForest.chainMax (.cons c rest) i := by
        rw [EForest.chainMax]; exact hM
      rw [h6, chainMax_cons]
    have hle : i + 1 + c.height ≤ M := by rw [hM]; exact Nat.le_max_left _ _
    have hM0 : ¬ M = 0 := by omega
    have hflcnode : find_longest_chain (ETree.node e (.cons c rest)) i = some (M, l) := by
      rw [find_longest_chain, hloop]
      simp only [hM0, if_false]
    have hMh : some (M, l) = some (i + (ETree.node e (.cons c rest)).height, l) := by
      rw [ETree.height]
      congr 2
      omega
    refine ⟨l, hflcnode.trans hMh, ?_, ?_⟩
    · rw [ETree.deepLeaves, mem_deepLeavesAt]
      rcases hdisj with ⟨hMcm, rfl⟩ | ⟨c', hc', hh', hl'⟩
      · exact ⟨c, by simp [EForest.toList], by omega, hmemc⟩
      · exact ⟨c', by rw [EForest.toList]; exact List.mem_cons_of_mem _ hc', by omega, hl'⟩
    · intro l' hl'
      rw [ETree.deepLeaves, mem_deepLeavesAt] at hl'
      obtain ⟨c'', hc'', hh'', hl''⟩ := hl'
      rw [EForest.toList, List.mem_cons] at hc''
      rcases hc'' with rfl | hc''
      · have hlcl := h4 (by omega)
        have hllc := hmaxc l' hl''
        omega
      · exact h5 c'' hc'' (by omega) l' hl''

/-- The invariant of the `for` loop of `find_longest_chain`, for a running
pair `(cm, some n)` with `0 < cm`: the loop returns the maximum of `cm` and
the depths contributed by the remaining children, together with a leaf that
beats `n` (when `cm` survives as the maximum) and the deepest leaves of every
child attaining the maximum. -/
theorem flcLoop_spec : ∀ (cs : EForest) (i cm : Nat) (n : ETree), 0 < cm →
    ∃ M l, flcLoop cs i cm (some n) = some (M, some l) ∧
      M = max cm (EForest.chainMax cs i) ∧
      ((M = cm ∧ l = n) ∨ ∃ c, c ∈ cs.toList ∧ i + 1 + c.height = M ∧ l ∈ c.deepLeaves) ∧
      (cm = M → n.ts ≤ l.ts) ∧
      (∀ c, c ∈ cs.toList → i + 1 + c.height = M → ∀ l' ∈ c.deepLeaves, l'.ts ≤ l.ts)
  | .nil, i, cm, n, hcm => by
    refine ⟨cm, n, rfl, ?_, Or.inl ⟨rfl, rfl⟩, fun _ => le_refl _, ?_⟩
    · simp [EForest.chainMax]
    · simp [EForest.toList]
  | .cons c rest, i, cm, n, hcm => by
    obtain ⟨lc, hflc, hmemc, hmaxc⟩ := flc_spec c (i + 1)
    by_cases h1 : cm < i + 1 + c.height
    · obtain ⟨M, l, heq, hM, hdisj, h4, h5⟩ :=
        flcLoop_spec rest i (i + 1 + c.height) lc (by omega)
      have hstep : flcLoop (.cons c rest) i cm (some n) =
          flcLoop rest i (i + 1 + c.height) (some lc) := by
        rw [flcLoop, hflc]
        simp only [h1, if_true]
      have hle : i + 1 + c.height ≤ M := by rw [hM]; exact Nat.le_max_left _ _
      have hrest : M = max (i + 1 + c.height) (EForest.chainMax rest i) := hM
      refine ⟨M, l, hstep.trans heq, ?_, ?_, ?_, ?_⟩
      · rw [EForest.chainMax, hrest]
        omega
      · rcases hdisj with ⟨hMeq, rfl⟩ | ⟨c', hc', hh', hl'⟩
        · exact Or.inr ⟨c, by simp [EForest.toList], hMeq.symm, hmemc⟩
        · exact Or.inr ⟨c', by rw [EForest.toList]; exact List.mem_cons_of_mem _ hc', hh', hl'⟩
      · intro hcmM
        exfalso
        omega
      · intro c'' hc'' hh'' l' hl'
        rw [EForest.toList, List.mem_cons] at hc''
        rcases hc'' with rfl | hc''
        · have hlcl := h4 hh''
          have hllc := hmaxc l' hl'
          omega
        · exact h5 c'' hc'' hh'' l' hl'
    · by_cases h2 : i + 1 + c.height = cm
      · by_cases h3 : n.ts < lc.ts
        · obtain ⟨M, l, heq, hM, hdisj, h4, h5⟩ :=
            flcLoop_spec rest i (i + 1 + c.height) lc (by omega)
          have hstep : flcLoop (.cons c rest) i cm (some n) =
              flcLoop rest i (i + 1 + c.height) (some lc) := by
            rw [flcLoop, hflc]
            simp only [h1, if_false]
            rw [if_pos h2]
            simp only [h3, if_true]
          have hrest : M = max (i + 1 + c.height) (EForest.chainMax rest i) := hM
          refine ⟨M, l, hstep.trans heq, ?_, ?_, ?_, ?_⟩
          · rw [EForest.chainMax, hrest]
            clear hdisj h4 h5 heq hmaxc hmemc hflc hM hrest
            omega
          · rcases hdisj with ⟨hMeq, rfl⟩ | ⟨c', hc', hh', hl'⟩
            · exact Or.inr ⟨c, by simp [EForest.toList], hMeq.symm, hmemc⟩
            · exact Or.inr ⟨c',
                by rw [EForest.toList]; exact List.mem_cons_of_mem _ hc', hh', hl'⟩
          · intro hcmM
            have hlcl := h4 (by omega)
            omega
          · intro c'' hc'' hh'' l' hl'
            rw [EForest.toList, List.mem_cons] at hc''
            rcases hc'' with rfl | hc''
            · have hlcl := h4 hh''
              have hllc := hmaxc l' hl'
              omega
            · exact h5 c'' hc'' hh'' l' hl'
        · obtain ⟨M, l, heq, hM, hdisj, h4, h5⟩ := flcLoop_spec rest i cm n hcm
          have hstep : flcLoop (.cons c rest) i cm (some n) =
              flcLoop rest i cm (some n) := by
            rw [flcLoop, hflc]
            simp only [h1, if_false]
            rw [if_pos h2]
            simp only [h3, if_false]
          have hrest : M = max cm (EForest.chainMax rest i) := hM
          refine ⟨M, l, hstep.trans heq, ?_, ?_, h4, ?_⟩
          · rw [EForest.chainMax, hrest]
            clear hdisj h4 h5 heq hmaxc hmemc hflc hM hrest
            omega
          · rcases hdisj with ⟨hMeq, hln⟩ | ⟨c', hc', hh', hl'⟩
            · exact Or.inl ⟨hMeq, hln⟩
            · exact Or.inr ⟨c',
                by rw [EForest.toList]; exact List.mem_cons_of_mem _ hc', hh', hl'⟩
          · intro c'' hc'' hh'' l' hl'
            rw [EForest.toList, List.mem_cons] at hc''
            rcases hc'' with rfl | hc''
            · have hnl := h4 (by omega)
              have hllc := hmaxc l' hl'
              omega
            · exact h5 c'' hc'' hh'' l' hl'
      · obtain ⟨M, l, heq, hM, hdisj, h4, h5⟩ := flcLoop_spec rest i cm n hcm
        have hstep : flcLoop (.cons c rest) i cm (some n) =
            flcLoop rest i cm (some n) := by
          rw [flcLoop, hflc]
          simp only [h1, if_false]
          rw [if_neg h2]
        have hrest : M = max cm (EForest.chainMax rest i) := hM
        have hliftcm : cm ≤ M := by rw [hM]; exact Nat.le_max_left _ _
        refine ⟨M, l, hstep.trans heq, ?_, ?_, h4, ?_⟩
        · rw [EForest.chainMax, hrest]
          clear hdisj h4 h5 heq hmaxc hmemc hflc hM hrest
          omega
        · rcases hdisj with ⟨hMeq, hln⟩ | ⟨c', hc', hh', hl'⟩
          · exact Or.inl ⟨hMeq, hln⟩
          · exact Or.inr ⟨c',
              by rw [EForest.toList]; exact List.mem_cons_of_mem _ hc', hh', hl'⟩
        · intro c'' hc'' hh'' l' hl'
          rw [EForest.toList, List.mem_cons] at hc''
          rcases hc'' with rfl | hc''
          · exfalso
            omega
          · exact h5 c'' hc'' hh'' l' hl'

end

/-- C6: on a store whose root unfolds to the tree `t`, if `lstar` is a leaf
at maximum depth whose timestamp strictly exceeds that of every other
maximum-depth leaf, then `find_head` returns `lstar`'s event. -/
theorem c6_head_is_max_depth_leaf_with_greatest_timestamp (m : Model) (t lstar : ETree)
    (hu : m.unfoldRoot = some t)
    (hmem : lstar ∈ t.deepLeaves)
    (hstrict : ∀ l' ∈ t.deepLeaves, l'.eventOf ≠ lstar.eventOf → l'.ts < lstar.ts) :
    Model.find_head m = some lstar.eventOf := by
  obtain ⟨l, hflc, hlmem, hlmax⟩ := flc_spec t 0
  have hev : l.eventOf = lstar.eventOf := by
    by_cases hne : l.eventOf = lstar.eventOf
    · exact hne
    · exfalso
      have h1 := hstrict l hlmem hne
      have h2 := hlmax lstar hmem
      omega
  rw [Model.find_head, hu]
  simp only [hflc, hev]

/-- Witness for C6: in `mW6` the two branches tie at depth 1 and `evRival`
carries the strictly greater timestamp, so it is the head. -/
theorem c6_head_is_max_depth_leaf_with_greatest_timestamp_witness :
    Model.unfoldRoot mW6 = some tW6 ∧
    ETree.node evRival .nil ∈ tW6.deepLeaves ∧
    (∀ l' ∈ tW6.deepLeaves, l'.eventOf ≠ (ETree.node evRival .nil).eventOf →
      l'.ts < (ETree.node evRival .nil).ts) ∧
    Model.find_head mW6 = some evRival :=
  ⟨by decide, by decide, by decide,
    c6_head_is_max_depth_leaf_with_greatest_timestamp mW6 tW6 (ETree.node evRival .nil)
      (by decide) (by decide) (by decide)⟩

theorem height_pos_of_ne_nil : ∀ (e : Event) (cs : EForest), cs ≠ .nil →
    1 ≤ (ETree.node e cs).height
  | _, .nil, h => absurd rfl h
  | _, .cons c rest, _ => by rw [ETree.height]; omega

theorem meetsAt_succ (h : Event → EventId) (ea eb : Event) (pa pb : PNode) (k : Nat) :
    meetsAt h (.child ea pa) (.child eb pb) (k + 1) = meetsAt h pa pb k := by
  rw [meetsAt, meetsAt]
  rfl

theorem meetsAt_succ_root_left (h : Event → EventId) (e : Event) (b : PNode) (k : Nat) :
    meetsAt h (.root e) b (k + 1) = false := by
  rw [meetsAt]
  rw [show PNode.kthParent (.root e) (k + 1) = none from rfl]

theorem meetsAt_succ_root_right (h : Event → EventId) (a : PNode) (e : Event) (k : Nat) :
    meetsAt h a (.root e) (k + 1) = false := by
  rw [meetsAt]
  rw [show PNode.kthParent (.root e) (k + 1) = none from rfl]
  cases PNode.kthParent a (k + 1) <;> rfl

/-- C9 (counterexample): `pnTop` sits two parent links above `pnRoot` and
`pnMid` one link above it, so the two share the common ancestor `pnRoot`
reachable through parent links; yet the lock-step walk of
`find_ancestor_depth` never sees the two references coincide and instead
steps the root onto its missing parent — the `.expect(..)` error branch the
claim says is not hit (modelled as `none`). -/
theorem c9_common_ancestor_counterexample :
    PNode.kthParent pnTop 2 = some pnRoot ∧
    PNode.kthParent pnMid 1 = some pnRoot ∧
    find_ancestor_depth testHash pnTop pnMid = none :=
  ⟨by decide, by decide, by decide⟩

/-- C9 (amended): if the `k`-th ancestors of `a` and `b` both exist and
carry the same event hash for some `k` — i.e. `a` and `b` are equidistant
from a common ancestor — then `find_ancestor_depth` avoids the
missing-parent error branch and returns the least such `k`, the number of
lock-step steps after which the two walked references first coincide. -/
theorem c9_lockstep_meeting_returns_least_depth (h : Event → EventId) (k : Nat) :
    ∀ (a b : PNode), meetsAt h a b k = true →
      ∃ j, find_ancestor_depth h a b = some j ∧ meetsAt h a b j = true ∧
        ∀ j' < j, meetsAt h a b j' = false := by
  induction k with
  | zero =>
    intro a b hm
    have heq : h a.eventOf = h b.eventOf := by
      simpa [meetsAt, PNode.kthParent] using hm
    exact ⟨0, by rw [find_ancestor_depth.eq_def]; simp [heq], hm, by intro j' hj'; omega⟩
  | succ k ih =>
    intro a b hm
    by_cases heq : h a.eventOf = h b.eventOf
    · refine ⟨0, by rw [find_ancestor_depth.eq_def]; simp [heq], ?_, by intro j' hj'; omega⟩
      simp [meetsAt, PNode.kthParent, heq]
    · cases a with
      | root ea =>
        rw [meetsAt_succ_root_left] at hm
        exact absurd hm (by simp)
      | child ea pa =>
        cases b with
        | root eb =>
          rw [meetsAt_succ_root_right] at hm
          exact absurd hm (by simp)
        | child eb pb =>
          rw [meetsAt_succ] at hm
          obtain ⟨j, hfad, hmj, hmin⟩ := ih pa pb hm
          refine ⟨j + 1, ?_, ?_, ?_⟩
          · rw [find_ancestor_depth.eq_def]
            simp [heq, hfad]
          · rw [meetsAt_succ]
            exact hmj
          · intro j' hj'
            cases j' with
            | zero => simp [meetsAt, PNode.kthParent, heq]
            | succ j'' =>
              rw [meetsAt_succ]
              exact hmin j'' (by omega)

/-- Witness for C9's amended statement: `pnMid` and `pnSib` meet after one
lock-step step at `pnRoot`. -/
theorem c9_lockstep_meeting_returns_least_depth_witness :
    meetsAt testHash pnMid pnSib 1 = true ∧
    (∃ j, find_ancestor_depth testHash pnMid pnSib = some j ∧
      meetsAt testHash pnMid pnSib j = true ∧
      ∀ j' < j, meetsAt testHash pnMid pnSib j' = false) :=
  ⟨by decide, c9_lockstep_meeting_returns_least_depth testHash 1 pnMid pnSib (by decide)⟩

/-- C7 (counterexample): in `mC7` the parent of `evChild` (`evParent`) is an
orphan of the very same buffer, not indexed when the pass begins; yet one
`reorganize` pass attaches `evChild`, because the loop inserts `evParent`
into the index before it reaches `evChild`. -/
theorem c7_single_pass_counterexample :
    alookup mC7.event_map evChild.previous_event_hash = none ∧
    evChild ∈ mC7.orphans ∧
    alookup (Model.reorganize testHash mC7).event_map (testHash evChild) =
      some { parent := some (testHash evParent), event := evChild, children := [] } :=
  ⟨by decide, by decide, by decide⟩

theorem acontains_nil (k : EventId) : acontains [] k = false := rfl

theorem acontains_cons (k'' k : EventId) (v : EventNode)
    (rest : List (EventId × EventNode)) :
    acontains ((k'', v) :: rest) k = (decide (k'' = k) || acontains rest k) := by
  by_cases hk : k'' = k
  · subst hk
    simp [acontains, alookup_cons_self]
  · simp [acontains, alookup_cons_of_ne _ _ _ _ hk, hk]

theorem acontains_appendChild (k' cid : EventId) :
    ∀ (em : List (EventId × EventNode)) (k : EventId),
      acontains (appendChild em k' cid) k = acontains em k := by
  intro em
  induction em with
  | nil => intro k; rfl
  | cons p rest ih =>
    intro k
    obtain ⟨k'', v⟩ := p
    by_cases hk : k'' = k'
    · subst hk
      rw [appendChild_cons_self, acontains_cons, acontains_cons, ih]
    · rw [appendChild_cons_of_ne _ _ _ _ _ hk, acontains_cons, acontains_cons, ih]

theorem acontains_ainsert (k' k : EventId) (v : EventNode) :
    ∀ em : List (EventId × EventNode),
      acontains (ainsert em k' v) k = (decide (k' = k) || acontains em k) := by
  intro em
  induction em with
  | nil =>
    rw [ainsert_nil, acontains_cons, acontains_nil]
  | cons p rest ih =>
    obtain ⟨k'', w⟩ := p
    by_cases hk : k'' = k'
    · subst hk
      rw [ainsert_cons_self, acontains_cons, acontains_cons]
      cases hb : decide (k'' = k) <;> simp [hb]
    · rw [ainsert_cons_of_ne _ _ _ _ _ hk, acontains_cons, acontains_cons, ih]
      cases hb : decide (k'' = k) <;> cases hb2 : decide (k' = k) <;> simp [hb, hb2]

theorem reorganizeLoop_mono (h : Event → EventId) :
    ∀ (orphans : List Event) (em : List (EventId × EventNode)) (k : EventId),
      acontains em k = true → acontains (reorganizeLoop h em orphans) k = true := by
  intro orphans
  induction orphans with
  | nil => intro em k hk; exact hk
  | cons o rest ih =>
    intro em k hk
    simp only [reorganizeLoop]
    by_cases hc : acontains em o.previous_event_hash = true
    · rw [if_pos hc]
      apply ih
      rw [acontains_ainsert, acontains_appendChild, hk]
      simp
    · rw [if_neg hc]
      exact ih em k hk

theorem reorganizeLoop_attaches (h : Event → EventId) :
    ∀ (orphans : List Event) (em : List (EventId × EventNode)) (o : Event),
      o ∈ orphans → acontains em o.previous_event_hash = true →
      acontains (reorganizeLoop h em orphans) (h o) = true := by
  intro orphans
  induction orphans with
  | nil => intro em o ho; exact absurd ho (List.not_mem_nil o)
  | cons o1 rest ih =>
    intro em o ho hp
    rw [List.mem_cons] at ho
    simp only [reorganizeLoop]
    rcases ho with rfl | ho
    · rw [if_pos hp]
      apply reorganizeLoop_mono
      rw [acontains_ainsert]
      simp
    · by_cases hc : acontains em o1.previous_event_hash = true
      · rw [if_pos hc]
        apply ih _ o ho
        rw [acontains_ainsert, acontains_appendChild, hp]
        simp
      · rw [if_neg hc]
        exact ih em o ho hp

theorem reorganizeLoop_not_attached (h : Event → EventId) :
    ∀ (orphans : List Event) (em : List (EventId × EventNode)) (k : EventId),
      acontains em k = false → (∀ o ∈ orphans, ¬ h o = k) →
      acontains (reorganizeLoop h em orphans) k = false := by
  intro orphans
  induction orphans with
  | nil => intro em k hk _; exact hk
  | cons o rest ih =>
    intro em k hk hno
    simp only [reorganizeLoop]
    by_cases hc : acontains em o.previous_event_hash = true
    · rw [if_pos hc]
      apply ih
      · rw [acontains_ainsert, acontains_appendChild, hk]
        have hok := hno o (List.mem_cons_self o rest)
        simp [hok]
      · intro o' ho'
        exact hno o' (List.mem_cons_of_mem _ ho')
    · rw [if_neg hc]
      exact ih em k hk fun o' ho' => hno o' (List.mem_cons_of_mem _ ho')



theorem reorganizeLoop_append (h : Event → EventId) :
    ∀ (l1 l2 : List Event) (em : List (EventId × EventNode)),
      reorganizeLoop h em (l1 ++ l2) = reorganizeLoop h (reorganizeLoop h em l1) l2 := by
  intro l1
  induction l1 with
  | nil => intro l2 em; rfl
  | cons o rest ih =>
    intro l2 em
    simp only [List.cons_append, reorganizeLoop]
    by_cases hc : acontains em o.previous_event_hash = true
    · rw [if_pos hc, if_pos hc]
      exact ih l2 _
    · rw [if_neg hc, if_neg hc]
      exact ih l2 em

/-- C7 (amended): a pass processes the buffer left to right; the index seen
by the orphan at position `j` is the pass-start index transformed by the
first `j` orphans (`reorganizeLoop … (take j)`).  The orphan is attached when
its parent is in that index; when it is not, the pass does not attach the
orphan at all (given its id is not otherwise present and no later orphan
carries the same id) — so a grandchild placed before its parent-orphan is not
resolved in that pass.  An orphan whose parent was indexed at pass start is
always attached, wherever it sits. -/
theorem c7_pass_attaches_iff_parent_indexed_when_processed (h : Event → EventId)
    (m : Model) (j : Nat) (o : Event) (hj : m.orphans[j]? = some o) :
    (acontains (reorganizeLoop h m.event_map (m.orphans.take j))
        o.previous_event_hash = true →
      acontains (Model.reorganize h m).event_map (h o) = true) ∧
    (acontains (reorganizeLoop h m.event_map (m.orphans.take j))
        o.previous_event_hash = false →
      acontains (reorganizeLoop h m.event_map (m.orphans.take j)) (h o) = false →
      (∀ o' ∈ m.orphans.drop (j + 1), ¬ h o' = h o) →
      acontains (Model.reorganize h m).event_map (h o) = false) ∧
    (acontains m.event_map o.previous_event_hash = true →
      acontains (Model.reorganize h m).event_map (h o) = true) := by
  obtain ⟨hjlt, hoj⟩ := List.getElem?_eq_some.mp hj
  have horph : m.orphans = m.orphans.take j ++ o :: m.orphans.drop (j + 1) := by
    conv_lhs => rw [← List.take_append_drop j m.orphans]
    rw [List.drop_eq_getElem_cons hjlt, hoj]
  have hfin : (Model.reorganize h m).event_map =
      reorganizeLoop h (reorganizeLoop h m.event_map (m.orphans.take j))
        (o :: m.orphans.drop (j + 1)) := by
    show reorganizeLoop h m.event_map m.orphans = _
    conv_lhs => rw [horph]
    rw [reorganizeLoop_append]
  refine ⟨?_, ?_, ?_⟩
  · intro hp
    rw [hfin]
    exact reorganizeLoop_attaches h (o :: m.orphans.drop (j + 1))
      (reorganizeLoop h m.event_map (m.orphans.take j)) o (List.mem_cons_self _ _) hp
  · intro hp hnot hlater
    rw [hfin]
    simp only [reorganizeLoop]
    rw [if_neg (by rw [hp]; simp)]
    exact reorganizeLoop_not_attached h (m.orphans.drop (j + 1)) _ (h o) hnot hlater
  · intro hp0
    rw [hfin]
    exact reorganizeLoop_attaches h (o :: m.orphans.drop (j + 1))
      (reorganizeLoop h m.event_map (m.orphans.take j)) o (List.mem_cons_self _ _)
      (reorganizeLoop_mono h (m.orphans.take j) m.event_map o.previous_event_hash hp0)

/-- Witness for C7's amended statement.  In `mC7` the orphan at position 1
(`evChild`) finds its parent in the index as transformed by the first orphan
(`evParent`, attached earlier in the same pass), so the pass attaches it; in
`mC7rev` the same `evChild` sits at position 0, its parent is not yet
indexed, and the pass does not attach it. -/
theorem c7_pass_attaches_iff_parent_indexed_when_processed_witness :
    mC7.orphans[1]? = some evChild ∧
    acontains (reorganizeLoop testHash mC7.event_map (mC7.orphans.take 1))
      evChild.previous_event_hash = true ∧
    acontains (Model.reorganize testHash mC7).event_map (testHash evChild) = true ∧
    mC7rev.orphans[0]? = some evChild ∧
    acontains (reorganizeLoop testHash mC7rev.event_map (mC7rev.orphans.take 0))
      evChild.previous_event_hash = false ∧
    acontains (Model.reorganize testHash mC7rev).event_map (testHash evChild) = false :=
  ⟨by decide, by decide,
    (c7_pass_attaches_iff_parent_indexed_when_processed testHash mC7 1 evChild
      (by decide)).1 (by decide),
    by decide, by decide,
    (c7_pass_attaches_iff_parent_indexed_when_processed testHash mC7rev 0 evChild
      (by decide)).2.1 (by decide) (by decide) (by decide)⟩

theorem height_le_maxHeight_of_mem : ∀ (cs : EForest), ∀ c ∈ cs.toList,
    c.height ≤ EForest.maxHeight cs
  | .nil => by simp [EForest.toList]
  | .cons t rest => by
    intro c hc
    rw [EForest.toList, List.mem_cons] at hc
    rw [EForest.maxHeight]
    rcases hc with rfl | hc
    · exact Nat.le_max_left _ _
    · have h1 := height_le_maxHeight_of_mem rest c hc
      have h2 := Nat.le_max_right t.height (EForest.maxHeight rest)
      omega

theorem height_node_of_ne_nil : ∀ (e : Event) (cs : EForest), cs ≠ .nil →
    (ETree.node e cs).height = 1 + EForest.maxHeight cs
  | _, .nil, h => absurd rfl h
  | _, .cons _ _, _ => by rw [ETree.height]

mutual

/-- Below the `u32` wrap — every depth reached staying under `2 ^ 32` — the
width-faithful traversal agrees with its `Nat` abstraction. -/
theorem flc_u32_eq : ∀ (t : ETree) (i : Nat), i + t.height < 2 ^ 32 →
    find_longest_chain_u32 t i = find_longest_chain t i
  | .node e .nil, i, _ => by
    rw [find_longest_chain_u32, find_longest_chain]
  | .node e (.cons c rest), i, hb => by
    have hbcs : ∀ c' ∈ (EForest.cons c rest).toList, i + 1 + c'.height < 2 ^ 32 := by
      intro c' hc'
      have h1 := height_le_maxHeight_of_mem (.cons c rest) c' hc'
      rw [ETree.height] at hb
      omega
    rw [find_longest_chain_u32, find_longest_chain,
      flcLoop_u32_eq (.cons c rest) i 0 none hbcs]

/-- Loop version of `flc_u32_eq`. -/
theorem flcLoop_u32_eq : ∀ (cs : EForest) (i cm : Nat) (cn : Option ETree),
    (∀ c ∈ cs.toList, i + 1 + c.height < 2 ^ 32) →
    flcLoop_u32 cs i cm cn = flcLoop cs i cm cn
  | .nil, _, _, _, _ => by rw [flcLoop_u32, flcLoop]
  | .cons c rest, i, cm, cn, hb => by
    have hc : i + 1 + c.height < 2 ^ 32 :=
      hb c (by rw [EForest.toList]; exact List.mem_cons_self _ _)
    have hrest : ∀ c' ∈ rest.toList, i + 1 + c'.height < 2 ^ 32 := fun c' h' =>
      hb c' (by rw [EForest.toList]; exact List.mem_cons_of_mem _ h')
    have hre : ∀ cm' cn', flcLoop_u32 rest i cm' cn' = flcLoop rest i cm' cn' :=
      fun cm' cn' => flcLoop_u32_eq rest i cm' cn' hrest
    rw [flcLoop_u32, flcLoop, Nat.mod_eq_of_lt (show i + 1 < 2 ^ 32 by omega),
      flc_u32_eq c (i + 1) hc]
    cases hf : find_longest_chain c (i + 1) with
    | none => rfl
    | some p =>
      obtain ⟨gi, gn⟩ := p
      simp only [hre]

end

/-- C10 (counterexample): the depth counter is a `u32`, so the claim's
"every starting depth `i`" includes `i = u32::MAX`, where the source's
`i + 1` wraps to `0`: on a node with a single leaf child, the recursive call
then returns depth `0` — not `≥ i + 1 > 0` — which ties with the initial
`current_max = 0` while `current_node` is still `None`, firing
`current_node.expect("current_node should be set!")` (a debug build already
panics on the `i + 1` overflow; `none` models the panic either way). -/
theorem c10_wrap_counterexample :
    (EForest.cons (ETree.node evParent .nil) .nil ≠ EForest.nil) ∧
    find_longest_chain_u32 (ETree.node evParent .nil) ((2 ^ 32 - 1 + 1) % 2 ^ 32) =
      some (0, ETree.node evParent .nil) ∧
    find_longest_chain_u32 (ETree.node (genesisEvent 0)
      (EForest.cons (ETree.node evParent .nil) .nil)) (2 ^ 32 - 1) = none :=
  ⟨by decide, by decide, by decide⟩

/-- C10 (amended): on a node with a non-empty child vector and a starting
depth `i` with `i` plus the node's height below `2 ^ 32` — so no depth the
traversal reaches wraps the `u32` — every recursive call on a child returns
a depth of at least `i + 1 > 0`, `find_longest_chain` neither trips its
`assert_ne!(current_max, 0)` nor its `current_node.expect(..)` (modelled as:
it returns `some`, with a non-zero depth), and the returned node is a
leaf. -/
theorem c10_internal_node_returns_leaf_below_wrap (e : Event) (cs : EForest) (i : Nat)
    (hne : cs ≠ .nil) (hbound : i + (ETree.node e cs).height < 2 ^ 32) :
    (∀ c ∈ cs.toList, ∃ l', find_longest_chain_u32 c ((i + 1) % 2 ^ 32) =
      some (i + 1 + c.height, l') ∧ i + 1 ≤ i + 1 + c.height) ∧
    ∃ d l, find_longest_chain_u32 (ETree.node e cs) i = some (d, l) ∧ d ≠ 0 ∧
      l.childrenOf = .nil := by
  have hpos := height_pos_of_ne_nil e cs hne
  have hnode := height_node_of_ne_nil e cs hne
  have hmod : (i + 1) % 2 ^ 32 = i + 1 := Nat.mod_eq_of_lt (by omega)
  refine ⟨?_, ?_⟩
  · intro c hc
    have hch := height_le_maxHeight_of_mem cs c hc
    have hcb : (i + 1) + c.height < 2 ^ 32 := by omega
    obtain ⟨l', hl', -, -⟩ := flc_spec c (i + 1)
    rw [hmod, flc_u32_eq c (i + 1) hcb]
    exact ⟨l', hl', by omega⟩
  · obtain ⟨l, hflc, hmem, -⟩ := flc_spec (ETree.node e cs) i
    refine ⟨i + (ETree.node e cs).height, l, ?_, by omega,
      deepLeaves_childrenOf_nil _ l hmem⟩
    rw [flc_u32_eq (ETree.node e cs) i hbound]
    exact hflc

/-- Witness for C10's amended statement on a root with one child at starting
depth 0. -/
theorem c10_internal_node_returns_leaf_below_wrap_witness :
    (EForest.cons (ETree.node evParent .nil) .nil ≠ EForest.nil) ∧
    (0 + (ETree.node (genesisEvent 0)
      (EForest.cons (ETree.node evParent .nil) .nil)).height < 2 ^ 32) ∧
    (∃ d l, find_longest_chain_u32 (ETree.node (genesisEvent 0)
        (EForest.cons (ETree.node evParent .nil) .nil)) 0 = some (d, l) ∧ d ≠ 0 ∧
      l.childrenOf = EForest.nil) :=
  ⟨by decide, by decide,
    (c10_internal_node_returns_leaf_below_wrap (genesisEvent 0)
      (EForest.cons (ETree.node evParent .nil) .nil) 0 (by decide) (by decide)).2⟩
